import Mathlib

/-!
Verification of the coding-agent orchestration engine and patch subsystem
(`flow.py`).  The Python code is shallowly embedded: each node method
(`prep`/`exec`/`post`) becomes a Lean function over an explicit state, Python
strings become `List Char` with Python-faithful primitives (`str.split`,
`str.strip`, substring tests), YAML documents become the inductive `Yaml`,
and the text-generation backend (`call_llm`) and the file-system primitives
are abstract parameters, as the spec treats them as external collaborators.
-/

/-- A parsed YAML document, the shape `yaml.safe_load` produces: scalars,
sequences and mappings.  Mappings are association lists with string keys
(the only key shape the program ever produces or consumes). -/
inductive Yaml where
  | ynull
  | ybool (b : Bool)
  | yint (n : Int)
  | ystr (s : String)
  | ylist (xs : List Yaml)
  | ymap (kvs : List (String × Yaml))

/-- Python truthiness (`bool(x)`) on a YAML value: `None`, `False`, `0`,
`""`, `[]` and `{}` are falsy, everything else truthy. -/
def yamlTruthy : Yaml → Bool
  | .ynull => false
  | .ybool b => b
  | .yint n => n != 0
  | .ystr s => s != ""
  | .ylist xs => !xs.isEmpty
  | .ymap kvs => !kvs.isEmpty

/-- Key lookup in a YAML mapping, i.e. Python `d.get(k)` / `k in d`. -/
def yamlGet (kvs : List (String × Yaml)) (k : String) : Option Yaml :=
  kvs.lookup k

/-- Whitespace for Python `str.strip()` (the characters the program ever
strips; Python also strips `\x0b`/`\x0c`, which never occur here). -/
def pyWS (c : Char) : Bool := c = ' ' ∨ c = '\t' ∨ c = '\n' ∨ c = '\r'

/-- Left strip. -/
def lstripL (s : List Char) : List Char := s.dropWhile pyWS

/-- Right strip. -/
def rstripL (s : List Char) : List Char := (s.reverse.dropWhile pyWS).reverse

/-- Python `str.strip()`. -/
def stripL (s : List Char) : List Char := rstripL (lstripL s)

/-- Fuelled worker for Python `str.split(sep)` with a non-empty separator:
scan left to right, each non-overlapping occurrence of `sep` starts a new
segment, empty segments are kept.  Fuel `s.length` always suffices. -/
def splitOnF (sep : List Char) : Nat → List Char → List (List Char)
  | 0, s => [s]
  | f+1, s =>
    if sep ≠ [] ∧ sep.isPrefixOf s then
      [] :: splitOnF sep f (s.drop sep.length)
    else
      match s with
      | [] => [[]]
      | c :: rest =>
        match splitOnF sep f rest with
        | [] => [[c]]
        | x :: xs => (c :: x) :: xs

/-- Python `s.split(sep)` for non-empty `sep`. -/
def splitOnL (sep s : List Char) : List (List Char) := splitOnF sep s.length s

/-- The three fence markers used by the extraction code. -/
def yamlTagL : List Char := "```yaml".toList

/-- The `\x60\x60\x60yml` fence tag. -/
def ymlTagL : List Char := "```yml".toList

/-- A bare triple-backtick fence. -/
def fenceL : List Char := "```".toList

/-- The layered block extraction shared by `MainDecisionAgent.exec`
(flow.py:250-268) and `AnalyzeAndPlanNode.exec` (flow.py:640-654): look for
a `yaml`-tagged fence, else a `yml`-tagged fence, else any fence, else fall
back to the whole stripped response.  Python `"x" in s` is the substring
test, i.e. `List.IsInfix`. -/
def extractYamlContent (response : List Char) : List Char :=
  let yc :=
    if yamlTagL <:+: response then
      let yamlBlocks := splitOnL yamlTagL response
      if 1 < yamlBlocks.length then
        stripL ((splitOnL fenceL (yamlBlocks.getD 1 [])).headD [])
      else []
    else if ymlTagL <:+: response then
      let yamlBlocks := splitOnL ymlTagL response
      if 1 < yamlBlocks.length then
        stripL ((splitOnL fenceL (yamlBlocks.getD 1 [])).headD [])
      else []
    else if fenceL <:+: response then
      let yamlBlocks := splitOnL fenceL response
      if 1 < yamlBlocks.length then stripL (yamlBlocks.getD 1 []) else []
    else []
  if yc = [] then stripL response else yc

/-- The synthetic fallback decision of `MainDecisionAgent.exec`
(flow.py:279-283): the caught exception text becomes the reason. -/
def synthFinish (excMsg : String) : Yaml :=
  .ymap [("tool", .ystr "finish"),
         ("reason", .ystr ("Error parsing tool decision: " ++ excMsg)),
         ("params", .ymap [])]

/-- Python `"tool" not in decision` for a truthy `decision`; on a mapping a
key test, on a string a substring test, on a list a membership test, and a
`TypeError` (modelled as `.error`) on scalars. -/
def toolNotIn : Yaml → Except String Bool
  | .ymap kvs => .ok ((yamlGet kvs "tool").isNone)
  | .ystr s => .ok (!(decide ("tool".toList <:+: s.toList)))
  | .ylist xs =>
      .ok (!(xs.any fun y => match y with | .ystr s => s == "tool" | _ => false))
  | .ynull => .ok true
  | .ybool _ => .error "argument of type bool is not iterable"
  | .yint _ => .error "argument of type int is not iterable"

/-- `MainDecisionAgent.exec` after the `call_llm` call (flow.py:249-283):
extract a block, parse it (`safeLoad` abstracts `yaml.safe_load`; `.error`
is a raised `yaml.YAMLError` whose text is the payload), reject falsy or
tool-less decisions, and convert every failure into the synthetic `finish`
decision instead of raising. -/
def mainDecisionExec (safeLoad : List Char → Except String Yaml)
    (response : List Char) : Yaml :=
  let yamlContent := extractYamlContent response
  match safeLoad yamlContent with
  | .error e => synthFinish e
  | .ok decision =>
    if !yamlTruthy decision then synthFinish "Invalid tool decision format"
    else
      match toolNotIn decision with
      | .error e => synthFinish e
      | .ok true => synthFinish "Invalid tool decision format"
      | .ok false => decision

/-- One history entry as the handler nodes see it: the decision fields plus
the `result` written once by the handler and the transient `file_content`
snapshot used only by the edit pipeline. -/
structure HistAction where
  tool : String := ""
  reason : String := ""
  params : List (String × Yaml) := []
  result : Option Yaml := none
  fileContent : Option String := none

/-- A validated line-range replacement (flow.py edit pipeline).  Line
numbers are the YAML integers the planner validated; `targetFile` is
attached by `ApplyChangesNode.prep`. -/
structure EditOp where
  startLine : Int
  endLine : Int
  replacement : String
  targetFile : String := ""
deriving DecidableEq

/-- The shared session dictionary, restricted to the fields the embedded
methods read or write. -/
structure Shared where
  userQuery : String := ""
  workingDir : String := ""
  history : List HistAction := []
  editOperations : Option (List EditOp) := none
  editReasoning : Option String := none

/-- `os.path.join` for two POSIX components as the program uses it: an
absolute second component wins, otherwise the parts are joined with a
single separator. -/
def pyPathJoin (a b : String) : String :=
  if b.startsWith "/" then b
  else if a = "" then b
  else if a.endsWith "/" then a ++ b
  else a ++ "/" ++ b

/-- `full_path = os.path.join(working_dir, p) if working_dir else p`, the
line every handler `prep` uses. -/
def resolvePath (workingDir p : String) : String :=
  if workingDir ≠ "" then pyPathJoin workingDir p else p

/-- `ReadFileAction.prep` (flow.py:298-318): requires a truthy string
`target_file` parameter on the last history entry; a falsy value raises
`Missing target_file parameter` (message quotes elided). -/
def readFileActionPrep (shared : Shared) : Except String String :=
  match shared.history.getLast? with
  | none => .error "No history found"
  | some lastAction =>
    match yamlGet lastAction.params "target_file" with
    | none => .error "Missing target_file parameter"
    | some v =>
      if !yamlTruthy v then .error "Missing target_file parameter"
      else
        match v with
        | .ystr filePath => .ok (resolvePath shared.workingDir filePath)
        | _ => .error "TypeError: target_file is not a string"

/-- `GrepSearchAction.prep` (flow.py:340-365): unlike the path handlers it
tests key *presence* (`"query" not in params`), then assembles the
parameter dictionary handed to `exec`. -/
def grepSearchActionPrep (shared : Shared) :
    Except String (List (String × Yaml)) :=
  match shared.history.getLast? with
  | none => .error "No history found"
  | some lastAction =>
    match yamlGet lastAction.params "query" with
    | none => .error "Missing query parameter"
    | some q =>
      .ok [("query", q),
           ("case_sensitive",
             (yamlGet lastAction.params "case_sensitive").getD (.ybool false)),
           ("include_pattern",
             (yamlGet lastAction.params "include_pattern").getD .ynull),
           ("exclude_pattern",
             (yamlGet lastAction.params "exclude_pattern").getD .ynull),
           ("working_dir", .ystr shared.workingDir)]

/-- `GrepSearchAction.post` (flow.py:380-389).  `exec` hands it the pair
`(ok, matches)` returned by the `grep_search` primitive (its declared type
is `Tuple[bool, List[Dict]]`), but the code unpacks it as
`matches, success = exec_res`, so the name `matchesVar` receives the ok
flag and `successVar` receives the match list; the dictionary stored as
the result is built from those swapped bindings. -/
def grepSearchActionPost (execRes : Bool × List Yaml) : Yaml :=
  let matchesVar : Bool := execRes.1
  let successVar : List Yaml := execRes.2
  .ymap [("success", .ylist successVar), ("matches", .ybool matchesVar)]

/-- `ListDirAction.prep` (flow.py:395-412): the one handler with a default,
`params.get("relative_workspace_path", ".")`. -/
def listDirActionPrep (shared : Shared) : Except String String :=
  match shared.history.getLast? with
  | none => .error "No history found"
  | some lastAction =>
    match yamlGet lastAction.params "relative_workspace_path" with
    | none => .ok (resolvePath shared.workingDir ".")
    | some (.ystr p) => .ok (resolvePath shared.workingDir p)
    | some _ => .error "TypeError: path is not a string"

/-- `ReadTargetFileNode.post` (flow.py:553-560): stores the read content in
the last history entry as `file_content`, unconditionally — also when the
read failed. -/
def readTargetFileNodePost (shared : Shared) (execRes : String × Bool) :
    Shared :=
  match shared.history.getLast? with
  | none => shared
  | some lastAction =>
    { shared with
      history := shared.history.dropLast ++
        [{ lastAction with fileContent := some execRes.1 }] }

/-- `AnalyzeAndPlanNode.prep` (flow.py:566-588): `if not file_content`
treats both an absent snapshot and the empty string as missing and raises
`File content not found`; then the `instructions` and `code_edit`
parameters must be truthy. -/
def analyzeAndPlanNodePrep (shared : Shared) :
    Except String (String × Yaml × Yaml) :=
  match shared.history.getLast? with
  | none => .error "No history found"
  | some lastAction =>
    let fileContent := lastAction.fileContent
    if fileContent.getD "" = "" then .error "File content not found"
    else
      let instructions := (yamlGet lastAction.params "instructions").getD .ynull
      if !yamlTruthy instructions then .error "Missing instructions parameter"
      else
        let codeEdit := (yamlGet lastAction.params "code_edit").getD .ynull
        if !yamlTruthy codeEdit then .error "Missing code_edit parameter"
        else .ok (fileContent.getD "", instructions, codeEdit)

/-- The message head every validation fault of `AnalyzeAndPlanNode.exec`
starts with: `Operation {i+1}` with the 1-based operation index. -/
def opMsg (idx : Nat) (tail : String) : String :=
  "Operation " ++ toString idx ++ tail

/-- The first validation fault for one planned operation, in the exact
check order of `AnalyzeAndPlanNode.exec` (flow.py:681-704): dictionary
shape, presence of `start_line`/`end_line`/`replacement`, their types,
both bounds in `[1, total_lines+1]`, and `start_line <= end_line`.  This
gives the message tail; `opFieldError` prepends the operation index
(message quotes elided). -/
def opFaultTail (totalLines : Nat) (op : Yaml) : Option String :=
  match op with
  | .ymap kvs =>
    match yamlGet kvs "start_line", yamlGet kvs "end_line",
        yamlGet kvs "replacement" with
    | none, _, _ => some " missing start_line"
    | some _, none, _ => some " missing end_line"
    | some _, some _, none => some " missing replacement"
    | some sv, some ev, some rv =>
      match sv with
      | .yint s =>
        match ev with
        | .yint e =>
          match rv with
          | .ystr _ =>
            if ¬ (1 ≤ s ∧ s ≤ (totalLines : Int) + 1) then
              some (" start_line out of range: " ++ toString s)
            else if ¬ (1 ≤ e ∧ e ≤ (totalLines : Int) + 1) then
              some (" end_line out of range: " ++ toString e)
            else if s > e then
              some (" start_line (" ++ toString s ++
                ") > end_line (" ++ toString e ++ ")")
            else none
          | _ => some " replacement must be a string"
        | _ => some " end_line must be an integer"
      | _ => some " start_line must be an integer"
  | _ => some " must be a dictionary"

/-- The complete fault message for operation number `idx` (1-based, as the
code reports `i+1`). -/
def opFieldError (idx : Nat) (totalLines : Nat) (op : Yaml) : Option String :=
  (opFaultTail totalLines op).map (opMsg idx)

/-- The validation loop `for i, op in enumerate(decision["operations"])`:
operations are checked in order and the first fault is raised. -/
def validateOperationsFrom (totalLines : Nat) : Nat → List Yaml →
    Except String Unit
  | _, [] => .ok ()
  | i, op :: rest =>
    match opFieldError (i + 1) totalLines op with
    | some m => .error m
    | none => validateOperationsFrom totalLines (i + 1) rest

/-- Validation of a parsed `operations` list against a file of
`totalLines` lines (flow.py:681-704). -/
def validateOperations (totalLines : Nat) (ops : List Yaml) :
    Except String Unit :=
  validateOperationsFrom totalLines 0 ops

/-- The acceptance condition the spec states for one operation: a mapping
with integer `start_line`/`end_line` and string `replacement`, both bounds
in `[1, totalLines+1]`, and `start_line <= end_line`. -/
def opWellFormed (totalLines : Nat) (op : Yaml) : Bool :=
  match op with
  | .ymap kvs =>
    match yamlGet kvs "start_line", yamlGet kvs "end_line",
        yamlGet kvs "replacement" with
    | some (.yint s), some (.yint e), some (.ystr _) =>
      decide (1 ≤ s) && decide (s ≤ (totalLines : Int) + 1) &&
      decide (1 ≤ e) && decide (e ≤ (totalLines : Int) + 1) &&
      decide (s ≤ e)
    | _, _, _ => false
  | _ => false

/-- `ApplyChangesNode.prep` (flow.py:719-749): an empty plan short-circuits
to `[]` (only a warning), otherwise the operations are sorted by
`start_line` in **descending** order (Python `sorted(..., reverse=True)`)
and the resolved target path is attached to each. -/
def applyChangesNodePrep (workingDir : String) (targetFile : Option String)
    (editOperations : List EditOp) : Except String (List EditOp) :=
  if editOperations = [] then .ok []
  else
    match targetFile with
    | none => .error "Missing target_file parameter"
    | some tf =>
      if tf = "" then .error "Missing target_file parameter"
      else
        let sortedOps :=
          editOperations.mergeSort (fun a b => decide (b.startLine ≤ a.startLine))
        .ok (sortedOps.map
          (fun op => { op with targetFile := resolvePath workingDir tf }))

/-- Modelled from the spec: `utils/replace_file.py` is not among the
sources, so `replace_range` follows §6 and §8 of the spec — the content is
split on line boundaries (1-indexed), the inclusive range
`[startLine, endLine]` is replaced by the replacement lines, and
`startLine = endLine = totalLines + 1` appends after the last line. -/
def replaceRangeLines (lines : List String) (startLine endLine : Nat)
    (replacement : String) : List String :=
  lines.take (startLine - 1) ++ replacement.splitOn "\n" ++ lines.drop endLine

/-- One planned operation applied to a file given as its line list. -/
def applyOpLines (op : EditOp) (lines : List String) : List String :=
  replaceRangeLines lines op.startLine.toNat op.endLine.toNat op.replacement

/-- The batch execution of `ApplyChangesNode` (a `pocketflow.BatchNode`):
per the spec's concurrency model (§5) the items are executed strictly
sequentially in list order, each producing an `(ok, message)` pair, with
no early abort; `prim` abstracts the `replace_file` primitive. -/
def runBatchExec (prim : EditOp → Bool × String) : List EditOp →
    List (Bool × String)
  | [] => []
  | op :: rest => prim op :: runBatchExec prim rest

/-- Write `result` into the last history entry (`history[-1]["result"]`),
a no-op on an empty history (`if history:`). -/
def setLastResult : List HistAction → Yaml → List HistAction
  | [], _ => []
  | [a], r => [{ a with result := some r }]
  | a :: rest, r => a :: setLastResult rest r

/-- `ApplyChangesNode.post` (flow.py:760-782): overall success is the
conjunction of the per-operation flags, the stored result records the
operation count, the per-operation outcomes and the planning reasoning,
and the transient `edit_operations`/`edit_reasoning` fields are popped
from the shared store. -/
def applyChangesNodePost (shared : Shared)
    (execResList : List (Bool × String)) : Shared :=
  let allSuccessful := execResList.all (fun r => r.1)
  let resultDetails := execResList.map
    (fun r => Yaml.ymap [("success", .ybool r.1), ("message", .ystr r.2)])
  let editResult : Yaml :=
    .ymap [("success", .ybool allSuccessful),
           ("operations", .yint execResList.length),
           ("details", .ylist resultDetails),
           ("reasoning", .ystr (shared.editReasoning.getD ""))]
  { shared with
    history := setLastResult shared.history editResult,
    editOperations := none,
    editReasoning := none }

/-- The engine state for the main loop, as `run_flow` initialises it plus
two observers of the run: `sideEffects` is the trace of dispatched
side-effecting handlers and `parserCalls` counts the `call_llm` calls made
by `MainDecisionAgent.exec`. -/
structure EngineState where
  userQuery : String := ""
  workingDir : String := ""
  history : List Yaml := []
  iterationCount : Nat := 0
  maxIterations : Nat := 10
  response : Option String := none
  sideEffects : List String := []
  parserCalls : Nat := 0

/-- The non-terminal tool names wired in `create_main_flow`
(flow.py:976-984); each dispatches a side-effecting handler and loops back
to the decision agent. -/
def sideEffectTools : List String :=
  ["read_file", "grep_search", "list_dir", "delete_file", "insert_file",
   "edit_file", "create_directory", "delete_directory"]

/-- How one run can end. -/
inductive RunOutcome where
  | finished (s : EngineState)
  | fatalError (s : EngineState) (msg : String)
  | noSuccessor (s : EngineState)
  | outOfFuel (s : EngineState)

/-- The state carried by a run outcome. -/
def RunOutcome.state : RunOutcome → EngineState
  | .finished s => s
  | .fatalError s _ => s
  | .noSuccessor s => s
  | .outOfFuel s => s

/-- The main loop of `coding_agent_flow` (flow.py:962-999 plus the
`pocketflow.Flow` walk, which the spec's §5 fixes as single-threaded and
sequential).  Each iteration is `MainDecisionAgent`:
`prep` increments the iteration counter and, past the cap, merely replaces
the prompt's user query by the string `"finish"` (flow.py:113-120);
`exec` then **always** calls `call_llm` and parses a decision —
`oracle k` abstracts the composite `call_llm`-plus-parse on its `k`-th
invocation; `post` appends the decision and dispatches on its `tool`
entry.  `finish` runs `FormatResponseNode` (`summarize` abstracts its
`call_llm` summary); other known tools run their handler, modelled as a
trace event, and loop; anything else has no successor edge and the flow
stops.  A `fuel` bound makes the loop a total function. -/
def runEngine (oracle : String → Nat → Yaml)
    (summarize : List Yaml → String) :
    Nat → EngineState → RunOutcome
  | 0, s => .outOfFuel s
  | fuel+1, s =>
    let newCount := s.iterationCount + 1
    let promptQuery :=
      if newCount > s.maxIterations then "finish" else s.userQuery
    let decision := oracle promptQuery s.parserCalls
    let s1 : EngineState :=
      { s with iterationCount := newCount,
               parserCalls := s.parserCalls + 1,
               history := s.history ++ [decision] }
    match decision with
    | .ymap kvs =>
      match yamlGet kvs "tool" with
      | none => .fatalError s1 "KeyError: tool"
      | some (.ystr t) =>
        if t = "finish" then
          .finished { s1 with response := some (summarize s1.history) }
        else if t ∈ sideEffectTools then
          runEngine oracle summarize fuel
            { s1 with sideEffects := s1.sideEffects ++ [t] }
        else .noSuccessor s1
      | some _ => .noSuccessor s1
    | _ => .fatalError s1 "TypeError: tool decision is not a mapping"

/-! ## Lemmas about the Python string primitives -/

theorem splitOnF_nil (sep : List Char) (f : Nat) : splitOnF sep f [] = [[]] := by
  cases f with
  | zero => rfl
  | succ g =>
    cases sep with
    | nil => simp [splitOnF]
    | cons c cs => simp [splitOnF, List.isPrefixOf]

theorem splitOnF_fuel (sep : List Char) :
    ∀ (f₁ : Nat) (s : List Char) (f₂ : Nat), s.length ≤ f₁ → s.length ≤ f₂ →
      splitOnF sep f₁ s = splitOnF sep f₂ s := by
  intro f₁
  induction f₁ with
  | zero =>
    intro s f₂ h1 _
    have hs : s = [] := List.eq_nil_of_length_eq_zero (Nat.le_zero.mp h1)
    subst hs
    rw [splitOnF_nil, splitOnF_nil]
  | succ g ih =>
    intro s f₂ h1 h2
    cases s with
    | nil => rw [splitOnF_nil, splitOnF_nil]
    | cons c rest =>
      cases f₂ with
      | zero => exact absurd h2 (by simp)
      | succ g₂ =>
        show splitOnF sep (g+1) (c :: rest) = splitOnF sep (g₂+1) (c :: rest)
        by_cases hc : sep ≠ [] ∧ sep.isPrefixOf (c :: rest)
        · have hsep : 1 ≤ sep.length := by
            cases sep with
            | nil => exact absurd rfl hc.1
            | cons _ _ => simp
          simp only [List.length_cons] at h1 h2
          have hlen : ((c :: rest).drop sep.length).length
              = rest.length + 1 - sep.length := by
            simp [List.length_drop]
          have hdrop : ((c :: rest).drop sep.length).length ≤ g := by
            rw [hlen]; omega
          have hdrop₂ : ((c :: rest).drop sep.length).length ≤ g₂ := by
            rw [hlen]; omega
          simp only [splitOnF, if_pos hc]
          rw [ih _ _ hdrop hdrop₂]
        · have hr : rest.length ≤ g := by
            simp only [List.length_cons] at h1; omega
          have hr₂ : rest.length ≤ g₂ := by
            simp only [List.length_cons] at h2; omega
          simp only [splitOnF, if_neg hc]
          rw [ih _ _ hr hr₂]

theorem splitOnL_nil (sep : List Char) : splitOnL sep [] = [[]] := by
  simp [splitOnL, splitOnF_nil]

theorem splitOnL_pos (sep s : List Char) (hsep : sep ≠ [])
    (hpre : sep.isPrefixOf s) :
    splitOnL sep s = [] :: splitOnL sep (s.drop sep.length) := by
  cases s with
  | nil =>
    cases sep with
    | nil => exact absurd rfl hsep
    | cons c cs => simp [List.isPrefixOf] at hpre
  | cons c rest =>
    show splitOnF sep (rest.length + 1) (c :: rest) = _
    have hsl : 1 ≤ sep.length := by
      cases sep with
      | nil => exact absurd rfl hsep
      | cons _ _ => simp
    simp only [splitOnF, if_pos (And.intro hsep hpre)]
    congr 1
    apply splitOnF_fuel
    · rw [List.length_drop]; simp only [List.length_cons]; omega
    · exact Nat.le_refl _

theorem splitOnF_ne_nil (sep : List Char) (f : Nat) (s : List Char) :
    splitOnF sep f s ≠ [] := by
  induction f generalizing s with
  | zero => simp [splitOnF]
  | succ g ih =>
    simp only [splitOnF]
    split
    · simp
    · split
      · simp
      · split <;> simp

theorem splitOnL_ne_nil (sep s : List Char) : splitOnL sep s ≠ [] :=
  splitOnF_ne_nil sep s.length s

theorem splitOnL_neg (sep : List Char) (c : Char) (rest : List Char)
    (hpre : ¬ sep.isPrefixOf (c :: rest)) :
    splitOnL sep (c :: rest) =
      (c :: (splitOnL sep rest).headD []) :: (splitOnL sep rest).tail := by
  show splitOnF sep (rest.length + 1) (c :: rest) = _
  have hcond : ¬ (sep ≠ [] ∧ sep.isPrefixOf (c :: rest)) := fun h => hpre h.2
  simp only [splitOnF, if_neg hcond]
  rw [show splitOnF sep rest.length rest = splitOnL sep rest from rfl]
  cases h : splitOnL sep rest with
  | nil => exact absurd h (splitOnL_ne_nil sep rest)
  | cons x xs => simp

theorem not_isPrefixOf_of_head_ne {a c : Char} (sepT : List Char)
    (rest : List Char) (hne : c ≠ a) :
    ¬ (a :: sepT).isPrefixOf (c :: rest) := by
  intro h
  rw [List.isPrefixOf_iff_prefix] at h
  rcases h with ⟨t, ht⟩
  simp only [List.cons_append, List.cons.injEq] at ht
  exact hne ht.1.symm

theorem splitOnL_clean_append (sep p1 r : List Char) (a : Char)
    (hhead : sep.head? = some a) (hp1 : a ∉ p1) :
    splitOnL sep (p1 ++ (sep ++ r)) = p1 :: splitOnL sep r := by
  induction p1 with
  | nil =>
    have hsep : sep ≠ [] := by
      intro h; rw [h] at hhead; simp at hhead
    have hpre : sep.isPrefixOf (sep ++ r) := by
      rw [List.isPrefixOf_iff_prefix]; exact List.prefix_append sep r
    rw [List.nil_append, splitOnL_pos sep (sep ++ r) hsep hpre,
      List.drop_left]
  | cons c p1' ih =>
    obtain ⟨sepT, hsepT⟩ : ∃ sepT, sep = a :: sepT := by
      cases sep with
      | nil => simp at hhead
      | cons x xs =>
        simp only [List.head?_cons, Option.some.injEq] at hhead
        exact ⟨xs, by rw [hhead]⟩
    have hca : c ≠ a := fun h => hp1 (h ▸ List.mem_cons_self c p1')
    have hp1' : a ∉ p1' := fun h => hp1 (List.mem_cons_of_mem c h)
    have hpre : ¬ sep.isPrefixOf (c :: (p1' ++ (sep ++ r))) := by
      rw [hsepT]
      exact not_isPrefixOf_of_head_ne sepT _ hca
    rw [List.cons_append, splitOnL_neg sep c _ hpre, ih hp1']
    simp

theorem headD_splitOnL_append (sep q w : List Char) (a : Char)
    (hhead : sep.head? = some a) (hq : a ∉ q) :
    (splitOnL sep (q ++ w)).headD [] = q ++ (splitOnL sep w).headD [] := by
  induction q with
  | nil => simp
  | cons c q' ih =>
    obtain ⟨sepT, hsepT⟩ : ∃ sepT, sep = a :: sepT := by
      cases sep with
      | nil => simp at hhead
      | cons x xs =>
        simp only [List.head?_cons, Option.some.injEq] at hhead
        exact ⟨xs, by rw [hhead]⟩
    have hca : c ≠ a := fun h => hq (h ▸ List.mem_cons_self c q')
    have hq' : a ∉ q' := fun h => hq (List.mem_cons_of_mem c h)
    have hpre : ¬ sep.isPrefixOf (c :: (q' ++ w)) := by
      rw [hsepT]
      exact not_isPrefixOf_of_head_ne sepT _ hca
    rw [List.cons_append, splitOnL_neg sep c _ hpre]
    simp only [List.headD_cons, List.cons_append, ih hq']

theorem headD_splitOnL_pos (sep w : List Char) (hsep : sep ≠ [])
    (hpre : sep.isPrefixOf w) : (splitOnL sep w).headD [] = [] := by
  rw [splitOnL_pos sep w hsep hpre]
  rfl

theorem splitOnL_no_occurrence (sep s : List Char)
    (hocc : ¬ sep <:+: s) : splitOnL sep s = [s] := by
  induction s with
  | nil => exact splitOnL_nil sep
  | cons c rest ih =>
    have hpre : ¬ sep.isPrefixOf (c :: rest) := by
      intro h
      rw [List.isPrefixOf_iff_prefix] at h
      exact hocc h.isInfix
    have hrest : ¬ sep <:+: rest := fun h => hocc (List.infix_cons h)
    rw [splitOnL_neg sep c rest hpre, ih hrest]
    rfl

/-! ## Lemmas about `str.strip` -/

theorem lstripL_cons_ws (c : Char) (s : List Char) (hc : pyWS c) :
    lstripL (c :: s) = lstripL s := by
  simp [lstripL, List.dropWhile_cons, hc]

theorem rstripL_append_ws (x : List Char) (c : Char) (hc : pyWS c) :
    rstripL (x ++ [c]) = rstripL x := by
  simp [rstripL, List.dropWhile_cons, hc]

theorem lstripL_eq_nil_strip (B : List Char) (h : lstripL B = []) :
    stripL B = [] := by
  simp [stripL, h, rstripL]

theorem stripL_wrap (B : List Char) (hne : stripL B ≠ []) :
    stripL ('\n' :: (B ++ ['\n'])) = stripL B := by
  have hl : lstripL B ≠ [] := fun h => hne (lstripL_eq_nil_strip B h)
  have h1 : lstripL ('\n' :: (B ++ ['\n'])) = lstripL B ++ ['\n'] := by
    rw [lstripL_cons_ws _ _ (by simp [pyWS])]
    simp only [lstripL, List.dropWhile_append]
    rw [if_neg (fun h => hl (by simp only [List.isEmpty_iff] at h; exact h))]
  rw [stripL, h1, rstripL_append_ws _ _ (by simp [pyWS])]
  rfl

/-! ## The fence tags -/

theorem yamlTagL_head : yamlTagL.head? = some '`' := by rfl

theorem fenceL_head : fenceL.head? = some '`' := by rfl

theorem tick_mem_yamlTagL : '`' ∈ yamlTagL := by decide

theorem tick_mem_ymlTagL : '`' ∈ ymlTagL := by decide

theorem tick_mem_fenceL : '`' ∈ fenceL := by decide

theorem no_yamlTag_infix_close (p2 : List Char) (hp2 : '`' ∉ p2) :
    ¬ yamlTagL <:+: ('`' :: '`' :: '`' :: '\n' :: p2) := by
  intro h
  rcases h with ⟨s, t, heq⟩
  match s with
  | [] => simp [yamlTagL] at heq
  | [a] => simp [yamlTagL] at heq
  | [a, b] => simp [yamlTagL] at heq
  | [a, b, c] => simp [yamlTagL] at heq
  | a :: b :: c :: d :: s' =>
    simp only [yamlTagL, List.cons_append, List.cons.injEq, List.append_assoc]
      at heq
    apply hp2
    rw [← heq.2.2.2.2]
    have : '`' ∈ "```yaml".toList := by decide
    simp only [List.mem_append]
    exact Or.inr (Or.inl this)

/-! ## The extraction on bare and fenced blocks -/

theorem extractYamlContent_bare (B : List Char) (hB : '`' ∉ B) :
    extractYamlContent B = stripL B := by
  have h1 : ¬ yamlTagL <:+: B := fun h => hB (h.subset tick_mem_yamlTagL)
  have h2 : ¬ ymlTagL <:+: B := fun h => hB (h.subset tick_mem_ymlTagL)
  have h3 : ¬ fenceL <:+: B := fun h => hB (h.subset tick_mem_fenceL)
  unfold extractYamlContent
  rw [if_neg h1, if_neg h2, if_neg h3]
  simp

theorem extractYamlContent_wrapped (p1 B p2 : List Char)
    (hp1 : '`' ∉ p1) (hB : '`' ∉ B) (hp2 : '`' ∉ p2)
    (hne : stripL B ≠ []) :
    extractYamlContent
      (p1 ++ (yamlTagL ++ ['\n']) ++ B ++ (['\n'] ++ fenceL ++ ['\n']) ++ p2)
      = stripL B := by
  have hq : '`' ∉ ('\n' :: (B ++ ['\n'])) := by
    intro h
    rcases List.mem_cons.mp h with h | h
    · exact absurd h (by decide)
    · rcases List.mem_append.mp h with h | h
      · exact hB h
      · exact absurd h (by decide)
  have hshape :
      p1 ++ (yamlTagL ++ ['\n']) ++ B ++ (['\n'] ++ fenceL ++ ['\n']) ++ p2
      = p1 ++ (yamlTagL ++ (('\n' :: (B ++ ['\n'])) ++
          ('`' :: '`' :: '`' :: '\n' :: p2))) := by
    have hf : fenceL = ['`', '`', '`'] := rfl
    rw [hf]
    simp [List.append_assoc]
  rw [hshape]
  have hcont : yamlTagL <:+:
      p1 ++ (yamlTagL ++ (('\n' :: (B ++ ['\n'])) ++
        ('`' :: '`' :: '`' :: '\n' :: p2))) :=
    ⟨p1, ('\n' :: (B ++ ['\n'])) ++ ('`' :: '`' :: '`' :: '\n' :: p2), by simp⟩
  unfold extractYamlContent
  rw [if_pos hcont]
  rw [splitOnL_clean_append yamlTagL p1 _ '`' yamlTagL_head hp1]
  have hw : splitOnL yamlTagL ('`' :: '`' :: '`' :: '\n' :: p2)
      = ['`' :: '`' :: '`' :: '\n' :: p2] :=
    splitOnL_no_occurrence _ _ (no_yamlTag_infix_close p2 hp2)
  have hhead1 : (splitOnL yamlTagL (('\n' :: (B ++ ['\n'])) ++
      ('`' :: '`' :: '`' :: '\n' :: p2))).headD []
      = ('\n' :: (B ++ ['\n'])) ++ ('`' :: '`' :: '`' :: '\n' :: p2) := by
    rw [headD_splitOnL_append yamlTagL _ _ '`' yamlTagL_head hq, hw]
    rfl
  obtain ⟨x, xs, hxs⟩ : ∃ x xs,
      splitOnL yamlTagL (('\n' :: (B ++ ['\n'])) ++
        ('`' :: '`' :: '`' :: '\n' :: p2)) = x :: xs := by
    cases h : splitOnL yamlTagL (('\n' :: (B ++ ['\n'])) ++
        ('`' :: '`' :: '`' :: '\n' :: p2)) with
    | nil => exact absurd h (splitOnL_ne_nil _ _)
    | cons x xs => exact ⟨x, xs, rfl⟩
  rw [hxs] at hhead1
  simp only [List.headD_cons] at hhead1
  rw [hxs]
  have hlen : 1 < (p1 :: x :: xs).length := by simp
  rw [if_pos hlen]
  have hgetD : (p1 :: x :: xs).getD 1 [] = x := rfl
  rw [hgetD, hhead1]
  have hpreF : fenceL.isPrefixOf ('`' :: '`' :: '`' :: '\n' :: p2) := rfl
  have hhead2 : (splitOnL fenceL (('\n' :: (B ++ ['\n'])) ++
      ('`' :: '`' :: '`' :: '\n' :: p2))).headD []
      = '\n' :: (B ++ ['\n']) := by
    rw [headD_splitOnL_append fenceL _ _ '`' fenceL_head hq,
      headD_splitOnL_pos fenceL _ (by decide) hpreF]
    simp
  rw [hhead2, stripL_wrap B hne]
  rw [if_neg hne]

/-! ## Lemmas about the plan validation -/

theorem opFaultTail_none_iff (totalLines : Nat) (op : Yaml) :
    opFaultTail totalLines op = none ↔ opWellFormed totalLines op = true := by
  cases op with
  | ymap kvs =>
    simp only [opFaultTail, opWellFormed]
    cases hs : yamlGet kvs "start_line" with
    | none => simp
    | some sv =>
      cases he : yamlGet kvs "end_line" with
      | none => simp
      | some ev =>
        cases hr : yamlGet kvs "replacement" with
        | none => simp
        | some rv =>
          cases sv <;> try simp
          case yint s =>
            cases ev <;> try simp
            case yint e =>
              cases rv <;> try simp
              case ystr r =>
                split_ifs with h1 h2 h3 <;> simp_all
  | ynull => simp [opFaultTail, opWellFormed]
  | ybool b => simp [opFaultTail, opWellFormed]
  | yint n => simp [opFaultTail, opWellFormed]
  | ystr s => simp [opFaultTail, opWellFormed]
  | ylist xs => simp [opFaultTail, opWellFormed]

theorem validateOperationsFrom_ok_iff (totalLines : Nat) :
    ∀ (i : Nat) (ops : List Yaml),
      validateOperationsFrom totalLines i ops = .ok () ↔
        ∀ op ∈ ops, opWellFormed totalLines op = true := by
  intro i ops
  induction ops generalizing i with
  | nil => simp [validateOperationsFrom]
  | cons op rest ih =>
    simp only [validateOperationsFrom, opFieldError]
    cases h : opFaultTail totalLines op with
    | some m =>
      simp only [Option.map_some']
      constructor
      · intro hc; cases hc
      · intro hall
        have hnone := (opFaultTail_none_iff totalLines op).mpr
          (hall op (List.mem_cons_self op rest))
        rw [h] at hnone
        cases hnone
    | none =>
      simp only [Option.map_none']
      rw [ih (i+1)]
      have hop := (opFaultTail_none_iff totalLines op).mp h
      constructor
      · intro hrest op' hmem
        rcases List.mem_cons.mp hmem with heq | hm
        · rw [heq]; exact hop
        · exact hrest op' hm
      · intro hall op' hm
        exact hall op' (List.mem_cons_of_mem op hm)

theorem validateOperationsFrom_error_at (totalLines : Nat) :
    ∀ (pre : List Yaml) (i : Nat) (op : Yaml) (rest : List Yaml),
      (∀ p ∈ pre, opWellFormed totalLines p = true) →
      opWellFormed totalLines op = false →
      ∃ tail, opFaultTail totalLines op = some tail ∧
        validateOperationsFrom totalLines i (pre ++ op :: rest) =
          .error (opMsg (i + pre.length + 1) tail) := by
  intro pre
  induction pre with
  | nil =>
    intro i op rest _ hbad
    cases h : opFaultTail totalLines op with
    | none =>
      rw [(opFaultTail_none_iff totalLines op).mp h] at hbad
      cases hbad
    | some tail =>
      refine ⟨tail, rfl, ?_⟩
      simp [validateOperationsFrom, opFieldError, h]
  | cons p pre' ih =>
    intro i op rest hpre hbad
    have hp : opFaultTail totalLines p = none :=
      (opFaultTail_none_iff totalLines p).mpr
        (hpre p (List.mem_cons_self p pre'))
    obtain ⟨tail, htail, hval⟩ := ih (i+1) op rest
      (fun q hq => hpre q (List.mem_cons_of_mem p hq)) hbad
    refine ⟨tail, htail, ?_⟩
    simp only [List.cons_append, validateOperationsFrom, opFieldError, hp,
      Option.map_none', List.append_eq]
    have harith : i + 1 + pre'.length + 1 = i + (p :: pre').length + 1 := by
      simp only [List.length_cons]
      omega
    rw [hval, harith]

/-! ## Lemmas about the applier -/

theorem runBatchExec_eq_map (prim : EditOp → Bool × String) :
    ∀ ops : List EditOp, runBatchExec prim ops = ops.map prim := by
  intro ops
  induction ops with
  | nil => rfl
  | cons op rest ih => simp [runBatchExec, ih]

theorem setLastResult_getLast? (r : Yaml) :
    ∀ (h : List HistAction) (a : HistAction), h.getLast? = some a →
      (setLastResult h r).getLast? = some { a with result := some r } := by
  intro h
  induction h with
  | nil => intro a ha; cases ha
  | cons x rest ih =>
    intro a ha
    cases rest with
    | nil =>
      have hax : a = x := by
        have : some x = some a := ha
        exact (Option.some.inj this).symm
      rw [hax]
      rfl
    | cons y t =>
      rw [List.getLast?_cons_cons] at ha
      rw [show setLastResult (x :: y :: t) r = x :: setLastResult (y :: t) r
        from rfl]
      have hcons : setLastResult (y :: t) r ≠ [] := by
        cases t <;> simp [setLastResult]
      obtain ⟨z, zs, hz⟩ := List.exists_cons_of_ne_nil hcons
      rw [hz, List.getLast?_cons_cons, ← hz]
      exact ih a ha

/-! ## Claim theorems -/

/-- C3: for every generation response, if the block extraction yields empty
text (then `yaml.safe_load` of the empty document gives `None`), or parsing
the extracted text fails, or the parsed mapping is empty or lacks a `tool`
key, `MainDecisionAgent.exec` does not raise: it returns the synthetic
decision with tool `finish`, an error-description reason, and empty
params. -/
theorem c3_parser_fallback (safeLoad : List Char → Except String Yaml)
    (response : List Char)
    (h : (extractYamlContent response = [] ∧ safeLoad [] = .ok .ynull)
       ∨ (∃ e, safeLoad (extractYamlContent response) = .error e)
       ∨ safeLoad (extractYamlContent response) = .ok (.ymap [])
       ∨ (∃ kvs, safeLoad (extractYamlContent response) = .ok (.ymap kvs) ∧
            yamlGet kvs "tool" = none)) :
    ∃ reason, mainDecisionExec safeLoad response =
      .ymap [("tool", .ystr "finish"), ("reason", .ystr reason),
             ("params", .ymap [])] := by
  unfold mainDecisionExec
  dsimp only
  rcases h with ⟨hemp, hnull⟩ | ⟨e, he⟩ | hmt | ⟨kvs, hk, htool⟩
  · rw [hemp, hnull]
    exact ⟨_, rfl⟩
  · rw [he]
    exact ⟨_, rfl⟩
  · rw [hmt]
    exact ⟨_, rfl⟩
  · rw [hk]
    cases kvs with
    | nil => exact ⟨_, rfl⟩
    | cons p ps =>
      dsimp only [yamlTruthy, List.isEmpty_cons, Bool.not_false, toolNotIn]
      rw [htool]
      exact ⟨_, rfl⟩

theorem c3_witness :
    ∃ reason, mainDecisionExec (fun _ => .error "parse failure")
        ("please finish".toList) =
      .ymap [("tool", .ystr "finish"), ("reason", .ystr reason),
             ("params", .ymap [])] :=
  c3_parser_fallback (fun _ => .error "parse failure") ("please finish".toList)
    (Or.inr (Or.inl ⟨"parse failure", rfl⟩))

/-- C8: a structured block `B` surrounded by extra prose inside a
`yaml`-tagged fence parses to the same decision as the bare block.  The
prose and the block are fence-free (no backticks) and the block is
non-blank — the configuration the claim describes. -/
theorem c8_extraction_rewrap (safeLoad : List Char → Except String Yaml)
    (p1 B p2 : List Char) (hp1 : '`' ∉ p1) (hB : '`' ∉ B) (hp2 : '`' ∉ p2)
    (hne : stripL B ≠ []) :
    mainDecisionExec safeLoad
      (p1 ++ (yamlTagL ++ ['\n']) ++ B ++ (['\n'] ++ fenceL ++ ['\n']) ++ p2)
      = mainDecisionExec safeLoad B := by
  unfold mainDecisionExec
  rw [extractYamlContent_wrapped p1 B p2 hp1 hB hp2 hne,
    extractYamlContent_bare B hB]

theorem c8_witness :
    mainDecisionExec (fun s => .ok (.ymap [("tool", .ystr s.length.repr)]))
      ("Here is the decision:\n".toList ++ (yamlTagL ++ ['\n']) ++
        "tool: read_file".toList ++ (['\n'] ++ fenceL ++ ['\n']) ++
        "Hope that helps.".toList)
      = mainDecisionExec (fun s => .ok (.ymap [("tool", .ystr s.length.repr)]))
          "tool: read_file".toList :=
  c8_extraction_rewrap _ _ _ _ (by decide) (by decide) (by decide) (by decide)

/-- C2 (code bug): `GrepSearchAction.post` unpacks the `(ok, matches)` pair
from `exec` in the wrong order, so at the failing input `(True, [])` the
stored result carries the match list under `success` and the ok flag under
`matches` — the two fields are swapped, contradicting `exec`'s declared
return shape and what `format_history_summary` reads back. -/
theorem c2_result_fields_swapped :
    grepSearchActionPost (true, []) =
      .ymap [("success", .ylist []), ("matches", .ybool true)] ∧
    Yaml.ylist [] ≠ Yaml.ybool true := by
  exact ⟨rfl, fun h => Yaml.noConfusion h⟩

/-- C9: `ListDirAction.prep` defaults a missing `relative_workspace_path`
parameter to `"."` and succeeds, while the read and grep handlers raise a
missing-parameter fault in the same situation. -/
theorem c9_listdir_default (shared : Shared) (lastAction : HistAction)
    (hl : shared.history.getLast? = some lastAction)
    (hmiss : yamlGet lastAction.params "relative_workspace_path" = none) :
    listDirActionPrep shared = .ok (resolvePath shared.workingDir ".") ∧
    (∀ (s : Shared) (a : HistAction), s.history.getLast? = some a →
      yamlGet a.params "target_file" = none →
      readFileActionPrep s = .error "Missing target_file parameter") ∧
    (∀ (s : Shared) (a : HistAction), s.history.getLast? = some a →
      yamlGet a.params "query" = none →
      grepSearchActionPrep s = .error "Missing query parameter") := by
  refine ⟨?_, ?_, ?_⟩
  · unfold listDirActionPrep
    rw [hl]
    dsimp only
    rw [hmiss]
  · intro s a ha hm
    unfold readFileActionPrep
    rw [ha]
    dsimp only
    rw [hm]
  · intro s a ha hm
    unfold grepSearchActionPrep
    rw [ha]
    dsimp only
    rw [hm]

theorem c9_witness :
    listDirActionPrep
        { workingDir := "/ws",
          history := [{ tool := "list_dir", reason := "look around" }] }
      = .ok (resolvePath "/ws" ".") ∧
    readFileActionPrep
        { workingDir := "/ws",
          history := [{ tool := "read_file", reason := "read" }] }
      = .error "Missing target_file parameter" := by
  have h := c9_listdir_default
    { workingDir := "/ws",
      history := [{ tool := "list_dir", reason := "look around" }] }
    { tool := "list_dir", reason := "look around" } rfl rfl
  exact ⟨h.1, h.2.1 _ { tool := "read_file", reason := "read" } rfl rfl⟩

/-- C10: `AnalyzeAndPlanNode.prep` treats an empty pre-edit snapshot
exactly like an absent one — `if not file_content` — and raises the fatal
`File content not found`, so an empty file can never be edited; and
`ReadTargetFileNode.post` stores whatever content the read returned in the
last history entry unconditionally, also on a failed read. -/
theorem c10_empty_content (shared : Shared) (lastAction : HistAction)
    (hl : shared.history.getLast? = some lastAction)
    (hfc : lastAction.fileContent = some "" ∨ lastAction.fileContent = none) :
    analyzeAndPlanNodePrep shared = .error "File content not found" ∧
    (∀ (s : Shared) (a : HistAction) (content : String) (ok : Bool),
      s.history.getLast? = some a →
      (readTargetFileNodePost s (content, ok)).history.getLast?
        = some { a with fileContent := some content }) := by
  constructor
  · unfold analyzeAndPlanNodePrep
    rw [hl]
    dsimp only
    rcases hfc with h | h <;> rw [h] <;> rfl
  · intro s a content ok ha
    unfold readTargetFileNodePost
    rw [ha]
    dsimp only
    simp [List.getLast?_concat]

theorem c10_witness :
    analyzeAndPlanNodePrep
        { history := [{ tool := "edit_file", fileContent := some "" }] }
      = .error "File content not found" :=
  (c10_empty_content
    { history := [{ tool := "edit_file", fileContent := some "" }] }
    { tool := "edit_file", fileContent := some "" } rfl (Or.inl rfl)).1

/-- C4: the Patch Planner validation accepts an operations list exactly
when every operation is a mapping with integer `start_line`/`end_line` and
string `replacement`, both bounds in `[1, total_lines+1]` and
`start_line <= end_line`; and any violation raises a fault whose message
names the offending operation's 1-based index (its tail states the rule,
per `opFaultTail`). -/
theorem c4_plan_validation (totalLines : Nat) (ops : List Yaml) :
    (validateOperations totalLines ops = .ok () ↔
      ∀ op ∈ ops, opWellFormed totalLines op = true) ∧
    (∀ (pre : List Yaml) (op : Yaml) (rest : List Yaml),
      ops = pre ++ op :: rest →
      (∀ p ∈ pre, opWellFormed totalLines p = true) →
      opWellFormed totalLines op = false →
      ∃ tail, opFaultTail totalLines op = some tail ∧
        validateOperations totalLines ops =
          .error ("Operation " ++ toString (pre.length + 1) ++ tail)) := by
  constructor
  · exact validateOperationsFrom_ok_iff totalLines 0 ops
  · intro pre op rest hops hpre hbad
    obtain ⟨tail, htail, hval⟩ :=
      validateOperationsFrom_error_at totalLines pre 0 op rest hpre hbad
    refine ⟨tail, htail, ?_⟩
    rw [hops]
    show validateOperationsFrom totalLines 0 (pre ++ op :: rest) = _
    rw [hval, Nat.zero_add]
    rfl

theorem c4_witness :
    validateOperations 3
        [Yaml.ymap [("start_line", Yaml.yint 1), ("end_line", Yaml.yint 2),
          ("replacement", Yaml.ystr "new text")]] = .ok () ∧
    (∃ tail,
      opFaultTail 3 (Yaml.ymap [("start_line", Yaml.yint 0),
        ("end_line", Yaml.yint 2), ("replacement", Yaml.ystr "x")])
        = some tail ∧
      validateOperations 3
        [Yaml.ymap [("start_line", Yaml.yint 1), ("end_line", Yaml.yint 2),
          ("replacement", Yaml.ystr "new text")],
         Yaml.ymap [("start_line", Yaml.yint 0), ("end_line", Yaml.yint 2),
          ("replacement", Yaml.ystr "x")]]
        = .error ("Operation " ++ toString (1 + 1) ++ tail)) := by
  constructor
  · exact (c4_plan_validation 3 _).1.mpr (by decide)
  · have h := (c4_plan_validation 3
      [Yaml.ymap [("start_line", Yaml.yint 1), ("end_line", Yaml.yint 2),
        ("replacement", Yaml.ystr "new text")],
       Yaml.ymap [("start_line", Yaml.yint 0), ("end_line", Yaml.yint 2),
        ("replacement", Yaml.ystr "x")]]).2
      [Yaml.ymap [("start_line", Yaml.yint 1), ("end_line", Yaml.yint 2),
        ("replacement", Yaml.ystr "new text")]]
      (Yaml.ymap [("start_line", Yaml.yint 0), ("end_line", Yaml.yint 2),
        ("replacement", Yaml.ystr "x")])
      [] rfl (by decide) (by decide)
    simpa using h

/-- C5: `ApplyChangesNode.prep` sorts the validated operations by
`start_line` in descending order (a permutation of the input with the
target path attached) before any is executed; the batch then executes
exactly that list sequentially; and applying one operation leaves every
line above its `start_line` untouched, so a not-yet-applied operation
strictly below the already-applied one keeps valid line numbers. -/
theorem c5_apply_order (workingDir tf : String) (ops : List EditOp)
    (hne : ops ≠ []) (htf : tf ≠ "") :
    ∃ sortedOps,
      applyChangesNodePrep workingDir (some tf) ops = .ok sortedOps ∧
      sortedOps.Pairwise (fun a b => b.startLine ≤ a.startLine) ∧
      sortedOps.Perm (ops.map (fun op =>
        { op with targetFile := resolvePath workingDir tf })) ∧
      (∀ prim : EditOp → Bool × String,
        runBatchExec prim sortedOps = sortedOps.map prim) ∧
      (∀ (op : EditOp) (lines : List String),
        op.startLine.toNat - 1 ≤ lines.length →
        (applyOpLines op lines).take (op.startLine.toNat - 1)
          = lines.take (op.startLine.toNat - 1)) := by
  refine ⟨(ops.mergeSort (fun a b => decide (b.startLine ≤ a.startLine))).map
    (fun op => { op with targetFile := resolvePath workingDir tf }),
    ?_, ?_, ?_, ?_, ?_⟩
  · unfold applyChangesNodePrep
    rw [if_neg hne]
    dsimp only
    rw [if_neg htf]
  · have hsorted := @List.sorted_mergeSort EditOp
      (fun a b : EditOp => decide (b.startLine ≤ a.startLine))
      (fun a b c hab hbc => by
        simp only [decide_eq_true_eq] at *
        exact le_trans hbc hab)
      (fun a b => by
        simp only [Bool.or_eq_true, decide_eq_true_eq]
        exact le_total b.startLine a.startLine)
      ops
    rw [List.pairwise_map]
    exact hsorted.imp (fun hab => by
      simp only [decide_eq_true_eq] at hab
      exact hab)
  · exact (List.mergeSort_perm ops _).map _
  · intro prim
    exact runBatchExec_eq_map prim _
  · intro op lines hlen
    unfold applyOpLines replaceRangeLines
    have hts : (lines.take (op.startLine.toNat - 1)).length
        = op.startLine.toNat - 1 := by
      rw [List.length_take]
      omega
    rw [List.append_assoc, List.take_append_eq_append_take, hts]
    simp

theorem c5_witness :
    ([⟨2, 2, "b", ""⟩, ⟨1, 1, "a", ""⟩] : List EditOp) ≠ [] ∧
    ∃ sortedOps,
      applyChangesNodePrep "/ws" (some "f.txt")
          ([⟨2, 2, "b", ""⟩, ⟨1, 1, "a", ""⟩] : List EditOp) = .ok sortedOps ∧
      sortedOps.Pairwise (fun a b => b.startLine ≤ a.startLine) ∧
      sortedOps.Perm (([⟨2, 2, "b", ""⟩, ⟨1, 1, "a", ""⟩] : List EditOp).map
        (fun op => { op with targetFile := resolvePath "/ws" "f.txt" })) ∧
      (∀ prim : EditOp → Bool × String,
        runBatchExec prim sortedOps = sortedOps.map prim) ∧
      (∀ (op : EditOp) (lines : List String),
        op.startLine.toNat - 1 ≤ lines.length →
        (applyOpLines op lines).take (op.startLine.toNat - 1)
          = lines.take (op.startLine.toNat - 1)) :=
  ⟨by decide,
   c5_apply_order "/ws" "f.txt" ([⟨2, 2, "b", ""⟩, ⟨1, 1, "a", ""⟩] : List EditOp)
     (by decide) (by decide)⟩

/-- C6: `ApplyChangesNode.post` stores, as the edit action's result, a
success flag equal to the conjunction of all per-operation flags together
with the operation count, the per-operation outcomes and the planning
reasoning; afterwards the transient `edit_operations`/`edit_reasoning`
fields are gone from the shared store; and the batch executes every
operation regardless of earlier failures. -/
theorem c6_apply_post (shared : Shared) (execResList : List (Bool × String))
    (lastBefore : HistAction)
    (hl : shared.history.getLast? = some lastBefore) :
    (applyChangesNodePost shared execResList).history.getLast? =
      some { lastBefore with result := some (Yaml.ymap
        [("success", .ybool (execResList.all (fun r => r.1))),
         ("operations", .yint execResList.length),
         ("details", .ylist (execResList.map (fun r =>
             Yaml.ymap [("success", .ybool r.1), ("message", .ystr r.2)]))),
         ("reasoning", .ystr (shared.editReasoning.getD ""))]) } ∧
    (applyChangesNodePost shared execResList).editOperations = none ∧
    (applyChangesNodePost shared execResList).editReasoning = none ∧
    (∀ (prim : EditOp → Bool × String) (opList : List EditOp),
      (runBatchExec prim opList).length = opList.length) := by
  refine ⟨?_, rfl, rfl, ?_⟩
  · exact setLastResult_getLast? _ shared.history lastBefore hl
  · intro prim opList
    rw [runBatchExec_eq_map]
    exact List.length_map opList prim

theorem c6_witness :
    (applyChangesNodePost
        { history := [{ tool := "edit_file" }],
          editOperations := some [⟨1, 1, "x", ""⟩],
          editReasoning := some "replace the header" }
        [(true, "ok"), (false, "range vanished")]).history.getLast? =
      some { ({ tool := "edit_file" } : HistAction) with
        result := some (Yaml.ymap
          [("success", .ybool ([(true, "ok"),
              (false, "range vanished")].all (fun r => r.1))),
           ("operations", .yint ([(true, "ok"),
              (false, "range vanished")] : List (Bool × String)).length),
           ("details", .ylist ([(true, "ok"),
              (false, "range vanished")].map (fun r =>
               Yaml.ymap [("success", .ybool r.1),
                 ("message", .ystr r.2)]))),
           ("reasoning", .ystr ((some "replace the header").getD ""))]) } :=
  (c6_apply_post
    { history := [{ tool := "edit_file" }],
      editOperations := some [⟨1, 1, "x", ""⟩],
      editReasoning := some "replace the header" }
    [(true, "ok"), (false, "range vanished")]
    { tool := "edit_file" } rfl).1

/-- C7: if the parser returns a `finish` decision on every invocation
(whatever prompt it was given), the run dispatches no side-effecting
handler and summarization runs over a history containing exactly that one
finish decision. -/
theorem c7_finish_only_run (oracle : String → Nat → Yaml)
    (summarize : List Yaml → String) (fuel : Nat) (s0 : EngineState)
    (horacle : ∀ q k, ∃ kvs, oracle q k = .ymap kvs ∧
      yamlGet kvs "tool" = some (.ystr "finish"))
    (hh : s0.history = []) (hse : s0.sideEffects = [])
    (hp : s0.parserCalls = 0) (hfuel : 1 ≤ fuel) :
    ∃ sFinal, runEngine oracle summarize fuel s0 = .finished sFinal ∧
      sFinal.sideEffects = [] ∧
      ∃ d, sFinal.history = [d] ∧
        (∃ kvs, d = .ymap kvs ∧
          yamlGet kvs "tool" = some (.ystr "finish")) ∧
        sFinal.response = some (summarize [d]) := by
  cases fuel with
  | zero => exact absurd hfuel (by simp)
  | succ f =>
    obtain ⟨kvs, hk, ht⟩ := horacle
      (if s0.iterationCount + 1 > s0.maxIterations then "finish"
       else s0.userQuery) 0
    have hrun : runEngine oracle summarize (f + 1) s0 =
        .finished { s0 with
          iterationCount := s0.iterationCount + 1,
          parserCalls := 1,
          history := [Yaml.ymap kvs],
          response := some (summarize [Yaml.ymap kvs]) } := by
      unfold runEngine
      dsimp only
      rw [hp, hh, hk]
      dsimp only
      rw [ht]
      dsimp only
      rw [if_pos rfl]
      simp
    exact ⟨_, hrun, hse, Yaml.ymap kvs, rfl, ⟨kvs, rfl, ht⟩, rfl⟩

theorem c7_witness :
    ∃ sFinal,
      runEngine (fun _ _ => Yaml.ymap [("tool", Yaml.ystr "finish"),
          ("reason", Yaml.ystr "nothing to do"), ("params", Yaml.ymap [])])
        (fun _ => "all done") 1 { userQuery := "hi" } = .finished sFinal ∧
      sFinal.sideEffects = [] ∧
      ∃ d, sFinal.history = [d] ∧
        (∃ kvs, d = Yaml.ymap kvs ∧
          yamlGet kvs "tool" = some (Yaml.ystr "finish")) ∧
        sFinal.response = some "all done" :=
  c7_finish_only_run
    (fun _ _ => Yaml.ymap [("tool", Yaml.ystr "finish"),
      ("reason", Yaml.ystr "nothing to do"), ("params", Yaml.ymap [])])
    (fun _ => "all done") 1 { userQuery := "hi" }
    (fun _ _ => ⟨[("tool", Yaml.ystr "finish"),
      ("reason", Yaml.ystr "nothing to do"), ("params", Yaml.ymap [])],
      rfl, rfl⟩)
    rfl rfl rfl (by decide)

/-- C1 (code bug): the iteration cap does not force `finish`.  With
`max_iterations = 1` and a parser that always yields a `grep_search`
decision, iteration 2 (counter 2 > cap 1) still consults the
text-generation service (`parserCalls` reaches 2) and dispatches
`grep_search` a second time: `MainDecisionAgent.prep` only swaps the
prompt's user query for the string `"finish"` (flow.py:118-120), and
`exec` ignores that marker, unconditionally calling `call_llm` and
returning whatever decision parses. -/
theorem c1_cap_not_enforced :
    ({ maxIterations := 1 } : EngineState).maxIterations = 1 ∧
    (RunOutcome.state (runEngine
        (fun _ _ => Yaml.ymap [("tool", Yaml.ystr "grep_search"),
          ("reason", Yaml.ystr "searching"),
          ("params", Yaml.ymap [("query", Yaml.ystr "x")])])
        (fun _ => "summary") 2
        { maxIterations := 1 })).iterationCount = 2 ∧
    (RunOutcome.state (runEngine
        (fun _ _ => Yaml.ymap [("tool", Yaml.ystr "grep_search"),
          ("reason", Yaml.ystr "searching"),
          ("params", Yaml.ymap [("query", Yaml.ystr "x")])])
        (fun _ => "summary") 2
        { maxIterations := 1 })).parserCalls = 2 ∧
    (RunOutcome.state (runEngine
        (fun _ _ => Yaml.ymap [("tool", Yaml.ystr "grep_search"),
          ("reason", Yaml.ystr "searching"),
          ("params", Yaml.ymap [("query", Yaml.ystr "x")])])
        (fun _ => "summary") 2
        { maxIterations := 1 })).sideEffects
      = ["grep_search", "grep_search"] := by
  refine ⟨rfl, ?_, ?_, ?_⟩ <;> rfl
